import Mathlib

/-!
Verification of the multi-tool library (multitool/multitool.py): a utility
that partitions a 3-D array (band x row x column) into row-wise chunks,
applies a user transform to each chunk, and reassembles the results into a
shared output buffer.

Shallow embedding conventions:
* numpy float cells become `Val` (an integer or the NaN sentinel); the
  transforms under study are opaque callables, so no float arithmetic is
  required.
* numpy arrays become structures carrying their shape and a total indexing
  function; all stated equalities are bounded to the shape.
* fallible Python code returns `Except PyErr`; Python attributes that may be
  unset (`self.rfunc` etc.) are `Option` fields, and reading an unset one
  yields `PyErr.attributeError`.
* the SharedArray registry (`sa.create` / `sa.delete`) is a list of allocated
  buffer names threaded through the orchestrator; `uuid.uuid4()` is modelled
  as a caller-supplied fresh name argument.
* the multiprocessing pool of `_process` dispatches the same worker over the
  same chunk list as the sequential `_process_nomulti` loop; it is modelled
  by folding the worker over the chunk list in dispatch order, and
  order-independence over all completion orders is proved separately.
-/

/-- A numpy float cell: either the NaN sentinel or a numeric value. -/
inductive Val where
  | nan : Val
  | num : ℤ → Val
deriving DecidableEq, Repr

/-- np.isnan on one cell. -/
def Val.isNan : Val → Bool
  | .nan => true
  | .num _ => false

/-- A 3-D numpy array with axes (band, row, column). -/
structure Arr3 where
  bands : ℕ
  rows : ℕ
  cols : ℕ
  data : ℕ → ℕ → ℕ → Val

/-- A 2-D array of pixel signatures with axes (band, pixel), as passed to the
processing function: `data[:, valid]` has shape (bands, number of valid pixels). -/
structure Sig where
  bands : ℕ
  npix : ℕ
  data : ℕ → ℕ → Val

/-- A chunk descriptor `[col_offset, row_offset, col_extent, row_extent]`
(the 4-element list built by `MultiTool.chunk`): `x` is element 0,
`y` element 1, `w` element 2, `h` element 3. -/
structure Chunk where
  x : ℕ
  y : ℕ
  w : ℕ
  h : ℕ
deriving DecidableEq, Repr

/-- A numpy shape tuple (NumBands, Rows, Columns). -/
structure Shape where
  bands : ℕ
  rows : ℕ
  cols : ℕ
deriving DecidableEq, Repr

/-- The value returned by a read function: a 2-D or a 3-D array
(mt_worker accepts both and reshapes 2-D data to one band). -/
inductive NpIn where
  | d2 (rows cols : ℕ) (data : ℕ → ℕ → Val)
  | d3 (a : Arr3)

/-- Python exceptions that the embedded code can raise. -/
inductive PyErr where
  | typeError
  | valueError
  | attributeError
  | fileExistsError
  | fileNotFoundError
  | debuggerHalt
  | exc (msg : String)
deriving DecidableEq, Repr

/-- A Python value as seen by `str.join`: the chunk descriptor is a list of
ints, and `' '.join` requires every item to be a str. -/
inductive PyVal where
  | int : ℕ → PyVal
  | str : String → PyVal

/-- Python `sep.join(xs)`: raises TypeError when any item is not a string. -/
def pyStrJoin (sep : String) (xs : List PyVal) : Except PyErr String :=
  if xs.all (fun v => match v with | .str _ => true | .int _ => false) then
    .ok (String.intercalate sep (xs.map (fun v => match v with | .str s => s | .int _ => "")))
  else
    .error .typeError

/-- An array of the given shape with every cell NaN
(`np.empty(...)` followed by `arr[:] = np.nan`). -/
def nanArr3 (b r c : ℕ) : Arr3 := ⟨b, r, c, fun _ _ _ => .nan⟩

/-- `arr.shape` of a 3-D array. -/
def Arr3.shape3 (a : Arr3) : Shape := ⟨a.bands, a.rows, a.cols⟩

/-- Array equality in the numpy sense: same shape and same cells at every
in-range index. -/
def Arr3.EqOn (a b : Arr3) : Prop :=
  a.bands = b.bands ∧ a.rows = b.rows ∧ a.cols = b.cols ∧
    ∀ bd, bd < a.bands → ∀ r, r < a.rows → ∀ c, c < a.cols →
      a.data bd r c = b.data bd r c

instance (a b : Arr3) : Decidable (a.EqOn b) := by
  unfold Arr3.EqOn; infer_instance

/-- `len(shape) == 2` normalization of mt_worker: reshape a 2-D read result to
`(1, rows, cols)`; 3-D data is passed through. -/
def normalize3 : NpIn → Arr3
  | .d2 r c d => ⟨1, r, c, fun _ rr cc => d rr cc⟩
  | .d3 a => a

/-- The numpy basic slice `arr[:, y : y + h, x : x + w]` (with the usual
clamping of slice bounds to the array extent). -/
def sliceChunk (a : Arr3) (ch : Chunk) : Arr3 :=
  let r0 := min ch.y a.rows
  let r1 := min (ch.y + ch.h) a.rows
  let c0 := min ch.x a.cols
  let c1 := min (ch.x + ch.w) a.cols
  ⟨a.bands, r1 - r0, c1 - c0, fun b r c => a.data b (r0 + r) (c0 + c)⟩

/-- The validity mask of mt_worker:
`np.all(~np.isnan(data), axis=0)` when dropnodata is set, all-ones otherwise. -/
def validMask (drop : Bool) (data : Arr3) : ℕ → ℕ → Bool :=
  fun r c =>
    if drop then (List.range data.bands).all (fun b => !(data.data b r c).isNan)
    else true

/-- The row-major list of (row, col) positions at which a boolean mask is
true: the pixel order used by numpy boolean-mask indexing over the last two
axes. -/
def validPositions (rows cols : ℕ) (valid : ℕ → ℕ → Bool) : List (ℕ × ℕ) :=
  (List.range rows).flatMap
    (fun r => ((List.range cols).filter (fun c => valid r c)).map (fun c => (r, c)))

/-- Index of the first occurrence of a position in the mask's true-list. -/
def lookupIdx (p : ℕ × ℕ) : List (ℕ × ℕ) → Option ℕ
  | [] => none
  | q :: rest => if q = p then some 0 else (lookupIdx p rest).map (· + 1)

/-- `data[:, valid]`: the (bands, npix) signature array whose pixel column j
is the j-th true position of the mask, in row-major order. -/
def extractCols (data : Arr3) (pos : List (ℕ × ℕ)) : Sig :=
  ⟨data.bands, pos.length, fun b j =>
    data.data b (pos.getD j (0, 0)).1 (pos.getD j (0, 0)).2⟩

/-- The scatter part of `output[:, valid] = res`: the cell at the j-th true
position of the mask receives pixel column j of `res`; other cells keep their
previous value. -/
def scatterAssign (out : Arr3) (pos : List (ℕ × ℕ)) (res : Sig) : Arr3 :=
  ⟨out.bands, out.rows, out.cols, fun b r c =>
    match lookupIdx (r, c) pos with
    | some j => res.data b j
    | none => out.data b r c⟩

/-- `output[:, valid] = res` including the shape check: numpy raises
ValueError when `res` does not have shape (output bands, number of valid
pixels). (Degenerate numpy broadcasts of smaller shapes are not exercised by
this code and are modelled as the exact-shape case only.) -/
def maskedAssign (outbands : ℕ) (out : Arr3) (pos : List (ℕ × ℕ)) (res : Sig) :
    Except PyErr Arr3 :=
  if res.bands = outbands ∧ res.npix = pos.length then
    .ok (scatterAssign out pos res)
  else
    .error .valueError

/-- The body of mt_worker's try block (multitool.py lines 152-164): allocate
the NaN-filled per-chunk output, compute the validity mask, run the
processing function on the valid signatures only, and scatter the results
back. -/
def processChunkData (outbands : ℕ) (pfunc : Sig → Except PyErr Sig) (drop : Bool)
    (data : Arr3) : Except PyErr Arr3 := do
  let output0 := nanArr3 outbands data.rows data.cols
  let pos := validPositions data.rows data.cols (validMask drop data)
  let res ← pfunc (extractCols data pos)
  maskedAssign outbands output0 pos res

/-- The type of the write function `wfunc(output, chunk)`: it updates the
shared output buffer (threaded explicitly as the last argument). -/
def WFunc : Type := Arr3 → Chunk → Arr3 → Except PyErr Arr3

/-- The type of the read function `rfunc(chunk)`. -/
def RFunc : Type := Chunk → Except PyErr NpIn

/-- The default write function defined in `_setup_arrays`:
`self.arrout[:, chunk[1]:chunk[1]+chunk[3], chunk[0]:chunk[0]+chunk[2]] = output`,
a numpy slice assignment (ValueError when the shapes disagree). -/
def defaultWfunc : WFunc := fun output ch st =>
  let r0 := min ch.y st.rows
  let r1 := min (ch.y + ch.h) st.rows
  let c0 := min ch.x st.cols
  let c1 := min (ch.x + ch.w) st.cols
  if output.bands = st.bands ∧ output.rows = r1 - r0 ∧ output.cols = c1 - c0 then
    .ok ⟨st.bands, st.rows, st.cols, fun b r c =>
      if r0 ≤ r ∧ r < r1 ∧ c0 ≤ c ∧ c < c1 then output.data b (r - r0) (c - c0)
      else st.data b r c⟩
  else
    .error .valueError

/-- mt_worker (multitool.py lines 142-172): read the chunk, normalize to 3-D,
process it, and write the result through the write function. The except
handler (lines 165-169) formats its message with `' '.join(chunk)`; the chunk
is a list of ints, so the join itself raises. Were the join to succeed, the
handler would drop into `nose.tools.set_trace()`, an interactive debugger,
modelled as the non-returning `PyErr.debuggerHalt`. -/
def mt_worker (outbands : ℕ) (rfunc : RFunc) (pfunc : Sig → Except PyErr Sig)
    (wfunc : WFunc) (drop : Bool) (ch : Chunk) (st : Arr3) : Except PyErr Arr3 := do
  let raw ← rfunc ch
  let data := normalize3 raw
  let output ←
    match processChunkData outbands pfunc drop data with
    | .ok out => Except.ok out
    | .error _e =>
      match pyStrJoin " " ([ch.x, ch.y, ch.w, ch.h].map PyVal.int) with
      | .error e2 => Except.error e2
      | .ok _s => Except.error PyErr.debuggerHalt
  wfunc output ch st

/-- `MultiTool.chunk(shape, nchunks)` (multitool.py lines 120-129): divide the
row extent into `nchunks` contiguous chunks; the first `nchunks - remainder`
chunks get `shape[1] / nchunks` rows, the rest one more. (All quantities are
non-negative integers, so `int(shape[1] / nchunks)` is floor division; Lean's
`/ 0 = 0` differs from Python's ZeroDivisionError, but every claim assumes
`nchunks >= 1` and the orchestrator always passes 100.) -/
def chunk (shape : Shape) (nchunks : ℕ) : List Chunk :=
  let chunksz := shape.rows / nchunks
  let remainder := shape.rows - chunksz * nchunks
  let chszs := List.replicate (nchunks - remainder) chunksz ++
    List.replicate remainder (chunksz + 1)
  (List.range nchunks).map
    (fun ichunk => ⟨0, (chszs.take ichunk).sum, shape.cols, chszs.getD ichunk 0⟩)

/-- The MultiTool instance state. Attributes that Python creates lazily
(`rfunc`, `inshape`, `id`, `arrout`, `chunks`) and the initially-None `wfunc`
are `Option`s. -/
structure MTState where
  pfunc : Sig → Except PyErr Sig
  nbandsout : ℕ
  nchunks : ℕ
  nproc : ℕ
  dropnodata : Bool
  wfunc : Option WFunc
  rfunc : Option RFunc
  inshape : Option Shape
  id : Option String
  arrout : Option Arr3
  chunks : Option (List Chunk)

/-- `MultiTool.__init__`: store the configuration; `self.wfunc = None`. -/
def mkMultiTool (pfunc : Sig → Except PyErr Sig) (nbandsout nchunks nproc : ℕ)
    (dropnodata : Bool) : MTState :=
  ⟨pfunc, nbandsout, nchunks, nproc, dropnodata, none, none, none, none, none, none⟩

/-- The SharedArray registry: the list of currently-allocated buffer names. -/
abbrev SAReg : Type := List String

/-- `sa.create(name, shape)`: fails when the name is already allocated. -/
def saCreate (sa : SAReg) (name : String) : Except PyErr SAReg :=
  if name ∈ sa then .error .fileExistsError else .ok (name :: sa)

/-- `sa.delete(name)`: fails when the name is not allocated. -/
def saDelete (sa : SAReg) (name : String) : Except PyErr SAReg :=
  if name ∈ sa then .ok (sa.erase name) else .error .fileNotFoundError

/-- Reading a Python instance attribute that may not have been assigned yet. -/
def attr {α : Type} : Option α → Except PyErr α
  | some a => .ok a
  | none => .error .attributeError

/-- `MultiTool._setup_arrays(inshape)` (multitool.py lines 82-99): store the
input shape; when `self.wfunc` is None, generate a buffer name, allocate the
shared output buffer with shape `self.inshape` (the input shape — the
commented-out TODO line would have used `(nbandsout, rows, cols)`), fill it
with NaN, compute the chunk list via `self.chunk(self.inshape)` (nchunks not
passed, so its default 100 is used), and install the default write function. -/
def setup_arrays (s : MTState) (inshape : Shape) (freshId : String) (sa : SAReg) :
    Except PyErr (MTState × SAReg) :=
  let s1 := { s with inshape := some inshape }
  match s1.wfunc with
  | some _ => .ok (s1, sa)
  | none =>
    match saCreate sa freshId with
    | .error e => .error e
    | .ok sa2 =>
      .ok ({ s1 with
              id := some freshId,
              arrout := some (nanArr3 inshape.bands inshape.rows inshape.cols),
              chunks := some (chunk inshape 100),
              wfunc := some defaultWfunc }, sa2)

/-- `MultiTool._cleanup` (multitool.py lines 101-103):
`if self.wfunc is None: sa.delete(self.id)`. -/
def cleanup (s : MTState) (sa : SAReg) : Except PyErr SAReg :=
  match s.wfunc with
  | none =>
    match s.id with
    | none => .error .attributeError
    | some i => saDelete sa i
  | some _ => .ok sa

/-- `_process_nomulti` / `_process` (multitool.py lines 105-118): run
mt_worker over every chunk. `_process_nomulti` is the sequential loop shown;
`_process` hands the same chunk list to a multiprocessing pool whose workers
receive the same globals, modelled by folding in dispatch order (chunks write
disjoint buffer regions; completion-order independence is proved separately).
`_setup_globals` reads `self.rfunc` as an argument, so an unset rfunc
attribute raises before any chunk runs. -/
def runChunks (outbands : ℕ) (rfunc : RFunc) (pfunc : Sig → Except PyErr Sig)
    (wfunc : WFunc) (drop : Bool) (chunks : List Chunk) (st : Arr3) :
    Except PyErr Arr3 :=
  chunks.foldlM (fun a ch => mt_worker outbands rfunc pfunc wfunc drop ch a) st

/-- `MultiTool.process_array(arrin)` (multitool.py lines 55-66): set up the
arrays, derive `self.rfunc` from in-memory slicing of `arrin`, run all chunks
(sequentially or pooled), clean up, and return `self.arrout`. -/
def process_array (s : MTState) (freshId : String) (sa : SAReg) (arrin : Arr3) :
    Except PyErr (MTState × SAReg × Arr3) := do
  let ssa ← setup_arrays s arrin.shape3 freshId sa
  let s2 := { ssa.1 with rfunc := some (fun ch => .ok (NpIn.d3 (sliceChunk arrin ch))) }
  let rf ← attr s2.rfunc
  let wf ← attr s2.wfunc
  let chs ← attr s2.chunks
  let ar ← attr s2.arrout
  let out ← runChunks s2.nbandsout rf s2.pfunc wf s2.dropnodata chs ar
  let s3 := { s2 with arrout := some out }
  let sa2 ← cleanup s3 ssa.2
  .ok (s3, sa2, out)

/-- `MultiTool.read_and_process(inshape, rfunc)` (multitool.py lines 68-80):
set up the arrays and run all chunks. The `rfunc` parameter is accepted but
never assigned to `self.rfunc`, so the workers use whatever `self.rfunc`
already holds (unset on a fresh instance: AttributeError when
`_setup_globals(self.nbandsout, self.rfunc, ...)` evaluates its arguments). -/
def read_and_process (s : MTState) (freshId : String) (sa : SAReg) (inshape : Shape)
    (_rfuncArg : RFunc) : Except PyErr (MTState × SAReg × Arr3) := do
  let ssa ← setup_arrays s inshape freshId sa
  let s1 := ssa.1
  let rf ← attr s1.rfunc
  let wf ← attr s1.wfunc
  let chs ← attr s1.chunks
  let ar ← attr s1.arrout
  let out ← runChunks s1.nbandsout rf s1.pfunc wf s1.dropnodata chs ar
  let s3 := { s1 with arrout := some out }
  let sa2 ← cleanup s3 ssa.2
  .ok (s3, sa2, out)

/-- The error component of an orchestrator result, when any. -/
def errOf {α : Type} : Except PyErr α → Option PyErr
  | .ok _ => none
  | .error e => some e

/-- The SharedArray registry left behind by a completed orchestrator call. -/
def runSA (r : Except PyErr (MTState × SAReg × Arr3)) : Option SAReg :=
  match r with
  | .ok (_, sa, _) => some sa
  | .error _ => none

/-- One cell of the array returned by a completed orchestrator call. -/
def runOutCell (r : Except PyErr (MTState × SAReg × Arr3)) (b i j : ℕ) : Option Val :=
  match r with
  | .ok (_, _, a) => some (a.data b i j)
  | .error _ => none

/-- One cell of a computed chunk output. -/
def excOutCell (r : Except PyErr Arr3) (b i j : ℕ) : Option Val :=
  match r with
  | .ok a => some (a.data b i j)
  | .error _ => none

/-- The shape of the output buffer allocated by `_setup_arrays`, when any. -/
def setupArroutShape (r : Except PyErr (MTState × SAReg)) : Option Shape :=
  match r with
  | .ok (s, _) => s.arrout.map Arr3.shape3
  | .error _ => none

/-- The length of the chunk list computed by `_setup_arrays`, when any. -/
def setupChunkCount (r : Except PyErr (MTState × SAReg)) : Option ℕ :=
  match r with
  | .ok (s, _) => s.chunks.map List.length
  | .error _ => none

/-- The pass-through processing function `lambda x: x` of the test suite. -/
def pfPass : Sig → Except PyErr Sig := fun s => .ok s

/-- A 1-band 2x2 all-zero input array. -/
def arrZ : Arr3 := ⟨1, 2, 2, fun _ _ _ => .num 0⟩


/-- A deterministic but not pixel-wise transform: reverse the pixel columns. -/
def pfRev : Sig → Except PyErr Sig :=
  fun s => .ok ⟨s.bands, s.npix, fun b j => s.data b (s.npix - 1 - j)⟩

/-- A 1-band 2-row 1-column array with cell values 0 and 1. -/
def arrCx : Arr3 := ⟨1, 2, 1, fun _ r _ => if r = 0 then .num 0 else .num 1⟩


/-- A processing function that raises on every chunk. -/
def pfBoom : Sig → Except PyErr Sig := fun _ => .error (.exc "boom")

/-- Claim C2: the spec requires that an exception raised by the transform in
one chunk is caught, reported, and does not propagate — the chunk's region
stays NaN, the write function is still invoked, and the overall call returns
normally. The code violates this: the except handler formats its message with
`' '.join(chunk)` on a list of ints, which itself raises TypeError; that
exception escapes mt_worker (nothing is reported, the write function is never
called for the chunk) and the whole process_array call fails with it. -/
theorem c2_handler_raises :
    errOf (process_array (mkMultiTool pfBoom 1 100 1 false) "e" [] arrZ) =
      some PyErr.typeError := by
  decide

/-- A read function whose result covers any chunk of a 1x2x2 input. -/
def rfGood : RFunc := fun _ => .ok (.d3 (nanArr3 1 2 2))

/-- Claim C3: the spec requires read_and_process(inshape, rfunc) to read every
chunk through the caller-provided rfunc. The code never assigns the rfunc
parameter: the workers use `self.rfunc`, which on a fresh instance was never
set, so the call fails with AttributeError no matter what read function the
caller passes. -/
theorem c3_rfunc_ignored :
    errOf (read_and_process (mkMultiTool pfPass 1 100 1 false) "r" [] ⟨1, 2, 2⟩ rfGood) =
      some PyErr.attributeError := by
  decide

/-- Claim C4: the spec (and the constructor docstring) say the output buffer
has shape (output_bands, rows, cols). The code allocates it with
`sa.create(self.id, self.inshape)` — the input shape: with nbandsout = 2 and a
1-band 4x4 input, the allocated buffer is 1x4x4, not 2x4x4. -/
theorem c4_buffer_shape :
    setupArroutShape (setup_arrays (mkMultiTool pfPass 2 100 2 false) ⟨1, 4, 4⟩ "b" []) =
        some ⟨1, 4, 4⟩ ∧
      (mkMultiTool pfPass 2 100 2 false).nbandsout = 2 := by
  decide

/-- Claim C5: the spec says the row dimension is partitioned into the
configured chunk count. The code stores `self.nchunks` but `_setup_arrays`
calls `self.chunk(self.inshape)` without passing it, so the default 100 is
always used: configured nchunks = 5 still yields 100 chunks. -/
theorem c5_chunk_count :
    setupChunkCount (setup_arrays (mkMultiTool pfPass 1 5 1 false) ⟨1, 10, 10⟩ "b" []) =
        some 100 ∧
      (mkMultiTool pfPass 1 5 1 false).nchunks = 5 := by
  decide

set_option maxRecDepth 4000 in
/-- Claim C6: the spec requires the run-allocated shared buffer to be freed
exactly once at run end. `_cleanup` only deletes when `self.wfunc is None`,
but `_setup_arrays` installs the default write function (making wfunc
non-None) in the very branch that allocates the buffer, so `sa.delete` is
unreachable: after a completed process_array call the buffer name is still
registered. -/
theorem c6_never_freed :
    runSA (process_array (mkMultiTool pfPass 1 100 1 false) "buf" [] arrZ) =
      some ["buf"] := by
  decide

/-- The sizes list `chszs` computed by `MultiTool.chunk` for row count R and
chunk count N. -/
def chszsOf (R N : ℕ) : List ℕ :=
  List.replicate (N - (R - R / N * N)) (R / N) ++
    List.replicate (R - R / N * N) (R / N + 1)

theorem chunk_eq_map (sh : Shape) (N : ℕ) :
    chunk sh N = (List.range N).map (fun i =>
      (⟨0, ((chszsOf sh.rows N).take i).sum, sh.cols,
        (chszsOf sh.rows N).getD i 0⟩ : Chunk)) := rfl

theorem rem_eq_mod (R N : ℕ) : R - R / N * N = R % N := by
  rw [Nat.mod_def, Nat.mul_comm]

theorem getD_append_lt {α : Type} {l1 l2 : List α} {i : ℕ} (d : α)
    (h : i < l1.length) : (l1 ++ l2).getD i d = l1.getD i d := by
  simp [List.getD_eq_getElem?_getD, List.getElem?_append_left h]

theorem getD_append_ge {α : Type} {l1 l2 : List α} {i : ℕ} (d : α)
    (h : l1.length ≤ i) : (l1 ++ l2).getD i d = l2.getD (i - l1.length) d := by
  simp [List.getD_eq_getElem?_getD, List.getElem?_append_right h]

theorem getD_replicate_lt {α : Type} {n i : ℕ} {a : α} (d : α) (h : i < n) :
    (List.replicate n a).getD i d = a := by
  simp [List.getD_eq_getElem?_getD, List.getElem?_replicate_of_lt h]

theorem chszsOf_length (R N : ℕ) (hN : 1 ≤ N) : (chszsOf R N).length = N := by
  have h := Nat.mod_lt R (show 0 < N by omega)
  simp only [chszsOf, rem_eq_mod, List.length_append, List.length_replicate]
  omega

theorem chszsOf_sum (R N : ℕ) (hN : 1 ≤ N) : (chszsOf R N).sum = R := by
  have h := Nat.mod_lt R (show 0 < N by omega)
  have hdm := Nat.div_add_mod R N
  simp only [chszsOf, rem_eq_mod, List.sum_append, List.sum_const_nat]
  rw [Nat.mul_succ, ← Nat.add_assoc, ← Nat.add_mul, Nat.sub_add_cancel (Nat.le_of_lt h)]
  omega

theorem chszsOf_getD_lo (R N i : ℕ) (hi : i < N - (R - R / N * N)) :
    (chszsOf R N).getD i 0 = R / N := by
  unfold chszsOf
  rw [getD_append_lt _ (by simpa using hi)]
  exact getD_replicate_lt _ hi

theorem chszsOf_getD_hi (R N i : ℕ) (hN : 1 ≤ N) (h1 : N - (R - R / N * N) ≤ i)
    (h2 : i < N) : (chszsOf R N).getD i 0 = R / N + 1 := by
  have hm := Nat.mod_lt R (show 0 < N by omega)
  unfold chszsOf
  rw [getD_append_ge _ (by simpa using h1)]
  apply getD_replicate_lt
  simp only [List.length_replicate]
  simp only [rem_eq_mod] at h1 ⊢
  omega

theorem chunk_getD (sh : Shape) (N i : ℕ) (hi : i < N) :
    (chunk sh N).getD i ⟨0, 0, 0, 0⟩ =
      ⟨0, ((chszsOf sh.rows N).take i).sum, sh.cols,
        (chszsOf sh.rows N).getD i 0⟩ := by
  rw [chunk_eq_map, List.getD_eq_getElem?_getD, List.getElem?_map,
    List.getElem?_range hi]
  rfl

theorem sum_take_succ_getD : ∀ (l : List ℕ) (i : ℕ), i < l.length →
    (l.take (i + 1)).sum = (l.take i).sum + l.getD i 0
  | [], i, h => by simp at h
  | a :: t, 0, _ => by simp
  | a :: t, i + 1, h => by
    simp only [List.take_succ_cons, List.sum_cons, List.getD_cons_succ]
    rw [sum_take_succ_getD t i (by simpa using h)]
    omega

theorem sum_range_getD (l : List ℕ) : ∀ i : ℕ, i ≤ l.length →
    ((List.range i).map (fun j => l.getD j 0)).sum = (l.take i).sum := by
  intro i
  induction i with
  | zero => simp
  | succ n ih =>
    intro h
    rw [List.range_succ, List.map_append, List.sum_append, ih (by omega),
      sum_take_succ_getD l n (by omega)]
    simp

theorem chunk_map_h (sh : Shape) (N : ℕ) :
    (chunk sh N).map Chunk.h =
      (List.range N).map (fun j => (chszsOf sh.rows N).getD j 0) := by
  rw [chunk_eq_map, List.map_map]
  rfl

theorem chunk_sum_h (sh : Shape) (N : ℕ) (hN : 1 ≤ N) :
    ((chunk sh N).map Chunk.h).sum = sh.rows := by
  have hlen := chszsOf_length sh.rows N hN
  rw [chunk_map_h, sum_range_getD (chszsOf sh.rows N) N (by omega),
    List.take_of_length_le (by omega), chszsOf_sum sh.rows N hN]

theorem chunk_take_map_h (sh : Shape) (N i : ℕ) (hN : 1 ≤ N) (hi : i < N) :
    (((chunk sh N).take i).map Chunk.h).sum = ((chszsOf sh.rows N).take i).sum := by
  have hlen := chszsOf_length sh.rows N hN
  rw [chunk_eq_map, (List.map_take ..).symm, List.take_range,
    show min i N = i by omega, List.map_map]
  exact sum_range_getD (chszsOf sh.rows N) i (by omega)

/-- Claim C1: for every row count R and chunk count N >= 1, `MultiTool.chunk`
produces exactly N descriptors; with base = R / N and
remainder = R - base * N, the first N - remainder descriptors have row extent
base and the remaining ones base + 1; each descriptor's row offset is the sum
of the row extents of all earlier descriptors; every descriptor has
col_offset 0 and col_extent equal to the column count; the row extents sum to
R (covering [0, R) with no gaps or overlaps, and extents are natural numbers
so never negative); and when N > R the call still succeeds, the excess
descriptors having extent 0. -/
theorem c1_partition (B R C N : ℕ) (hN : 1 ≤ N) :
    (chunk ⟨B, R, C⟩ N).length = N ∧
    (∀ i, i < N - (R - R / N * N) →
      ((chunk ⟨B, R, C⟩ N).getD i ⟨0, 0, 0, 0⟩).h = R / N) ∧
    (∀ i, N - (R - R / N * N) ≤ i → i < N →
      ((chunk ⟨B, R, C⟩ N).getD i ⟨0, 0, 0, 0⟩).h = R / N + 1) ∧
    (∀ i, i < N → ((chunk ⟨B, R, C⟩ N).getD i ⟨0, 0, 0, 0⟩).y =
      (((chunk ⟨B, R, C⟩ N).take i).map Chunk.h).sum) ∧
    (∀ ch ∈ chunk ⟨B, R, C⟩ N, ch.x = 0 ∧ ch.w = C) ∧
    ((chunk ⟨B, R, C⟩ N).map Chunk.h).sum = R ∧
    (R < N → ∀ i, i < N - (R - R / N * N) →
      ((chunk ⟨B, R, C⟩ N).getD i ⟨0, 0, 0, 0⟩).h = 0) := by
  refine ⟨?_, ?_, ?_, ?_, ?_, ?_, ?_⟩
  · rw [chunk_eq_map, List.length_map, List.length_range]
  · intro i hi
    have hiN : i < N := by
      have := Nat.mod_lt R (show 0 < N by omega)
      rw [rem_eq_mod] at hi; omega
    rw [chunk_getD _ _ _ hiN]
    exact chszsOf_getD_lo R N i hi
  · intro i h1 h2
    rw [chunk_getD _ _ _ h2]
    exact chszsOf_getD_hi R N i hN h1 h2
  · intro i hi
    rw [chunk_getD _ _ _ hi]
    exact (chunk_take_map_h ⟨B, R, C⟩ N i hN hi).symm
  · intro ch hch
    rw [chunk_eq_map] at hch
    obtain ⟨j, _, rfl⟩ := List.mem_map.mp hch
    exact ⟨rfl, rfl⟩
  · exact chunk_sum_h ⟨B, R, C⟩ N hN
  · intro hRN i hi
    have hiN : i < N := by
      have := Nat.mod_lt R (show 0 < N by omega)
      rw [rem_eq_mod] at hi; omega
    rw [chunk_getD _ _ _ hiN, chszsOf_getD_lo R N i hi]
    exact Nat.div_eq_of_lt hRN

/-- Witness for C1 at R = 10, N = 4, C = 7: exercises the theorem at a
concrete input (extents 2, 2, 3, 3 with cumulative offsets 0, 2, 4, 7). -/
theorem c1_partition_witness :
    (chunk ⟨1, 10, 7⟩ 4).length = 4 ∧
      ((chunk ⟨1, 10, 7⟩ 4).map Chunk.h).sum = 10 :=
  ⟨(c1_partition 1 10 7 4 (by decide)).1,
    (c1_partition 1 10 7 4 (by decide)).2.2.2.2.2.1⟩

theorem getD_mem {α : Type} : ∀ (l : List α) (j : ℕ) (d : α), j < l.length →
    l.getD j d ∈ l
  | a :: t, 0, _, _ => List.mem_cons_self a t
  | a :: t, j + 1, d, h => List.mem_cons_of_mem a (getD_mem t j d (by simpa using h))

theorem mem_validPositions {rows cols : ℕ} {valid : ℕ → ℕ → Bool} {p : ℕ × ℕ} :
    p ∈ validPositions rows cols valid ↔
      p.1 < rows ∧ p.2 < cols ∧ valid p.1 p.2 = true := by
  unfold validPositions
  simp only [List.mem_flatMap, List.mem_map, List.mem_filter, List.mem_range]
  constructor
  · rintro ⟨r, hr, c, ⟨hc, hv⟩, rfl⟩
    exact ⟨hr, hc, hv⟩
  · rintro ⟨h1, h2, h3⟩
    exact ⟨p.1, h1, p.2, ⟨h2, h3⟩, rfl⟩

theorem lookupIdx_none_of_not_mem : ∀ (l : List (ℕ × ℕ)) (p : ℕ × ℕ), p ∉ l →
    lookupIdx p l = none := by
  intro l
  induction l with
  | nil => intro p _; rfl
  | cons q rest ih =>
    intro p h
    unfold lookupIdx
    rw [if_neg (fun e => h (by rw [← e]; exact List.mem_cons_self q rest)),
      ih p (fun m => h (List.mem_cons_of_mem q m))]
    rfl

theorem lookupIdx_some_getD : ∀ (l : List (ℕ × ℕ)) (p : ℕ × ℕ) (j : ℕ) (d : ℕ × ℕ),
    lookupIdx p l = some j → j < l.length ∧ l.getD j d = p := by
  intro l
  induction l with
  | nil => intro p j d h; simp [lookupIdx] at h
  | cons q rest ih =>
    intro p j d h
    unfold lookupIdx at h
    by_cases e : q = p
    · rw [if_pos e] at h
      cases h
      exact ⟨by simp, e⟩
    · rw [if_neg e] at h
      cases hr : lookupIdx p rest with
      | none => rw [hr] at h; simp at h
      | some j0 =>
        rw [hr] at h
        simp only [Option.map_some', Option.some.injEq] at h
        obtain ⟨hlt, hgd⟩ := ih p j0 d hr
        subst h
        exact ⟨by simpa using Nat.succ_lt_succ hlt, by simpa using hgd⟩

theorem processChunkData_ok_elim {ob : ℕ} {pf : Sig → Except PyErr Sig}
    {drop : Bool} {data : Arr3} {out : Arr3}
    (h : processChunkData ob pf drop data = .ok out) :
    ∃ res,
      pf (extractCols data
        (validPositions data.rows data.cols (validMask drop data))) = .ok res ∧
      res.bands = ob ∧
      res.npix = (validPositions data.rows data.cols (validMask drop data)).length ∧
      out = scatterAssign (nanArr3 ob data.rows data.cols)
        (validPositions data.rows data.cols (validMask drop data)) res := by
  unfold processChunkData at h
  simp only [Bind.bind, Except.bind] at h
  cases hp : pf (extractCols data
      (validPositions data.rows data.cols (validMask drop data))) with
  | error e =>
    rw [hp] at h
    exact Except.noConfusion h
  | ok res =>
    rw [hp] at h
    have h2 : maskedAssign ob (nanArr3 ob data.rows data.cols)
        (validPositions data.rows data.cols (validMask drop data)) res = .ok out := h
    unfold maskedAssign at h2
    by_cases hc : res.bands = ob ∧
        res.npix = (validPositions data.rows data.cols (validMask drop data)).length
    · rw [if_pos hc] at h2
      cases h2
      exact ⟨res, rfl, hc.1, hc.2, rfl⟩
    · rw [if_neg hc] at h2
      exact Except.noConfusion h2

theorem not_isNan_iff (v : Val) : (!v.isNan) = true ↔ v ≠ Val.nan := by
  cases v <;> simp [Val.isNan]

/-- Claim C7: with the nodata-drop flag enabled, a pixel is valid iff none of
its band values is NaN (logical AND over the band axis of not-isnan); with it
disabled every pixel is valid; the processing function is invoked only on the
valid pixel positions (every column of its input comes from a valid pixel);
and every invalid in-range pixel position is NaN in the chunk output computed
by the worker, whatever the processing function returned. -/
theorem c7_nodata (ob : ℕ) (pf : Sig → Except PyErr Sig) (data out : Arr3)
    (h : processChunkData ob pf true data = .ok out) :
    (∀ r c, validMask true data r c = true ↔
      ∀ b, b < data.bands → data.data b r c ≠ Val.nan) ∧
    (∀ r c, validMask false data r c = true) ∧
    (∀ j, j < (validPositions data.rows data.cols (validMask true data)).length →
      validMask true data
        ((validPositions data.rows data.cols (validMask true data)).getD j (0, 0)).1
        ((validPositions data.rows data.cols (validMask true data)).getD j (0, 0)).2
        = true) ∧
    (∀ r c, r < data.rows → c < data.cols → validMask true data r c = false →
      ∀ b, out.data b r c = Val.nan) := by
  refine ⟨?_, ?_, ?_, ?_⟩
  · intro r c
    unfold validMask
    simp only [if_true, List.all_eq_true, List.mem_range]
    constructor
    · intro hall b hb
      exact (not_isNan_iff _).mp (hall b hb)
    · intro hall b hb
      exact (not_isNan_iff _).mpr (hall b hb)
  · intro r c
    rfl
  · intro j hj
    have hmem := getD_mem _ j ((0 : ℕ), (0 : ℕ)) hj
    exact (mem_validPositions.mp hmem).2.2
  · intro r c hr hc hv b
    obtain ⟨res, _, _, _, hout⟩ := processChunkData_ok_elim h
    subst hout
    unfold scatterAssign
    dsimp only
    have hnm : ((r, c) : ℕ × ℕ) ∉
        validPositions data.rows data.cols (validMask true data) := by
      intro hm
      have := (mem_validPositions.mp hm).2.2
      simp only at this
      rw [hv] at this
      cases this
    rw [lookupIdx_none_of_not_mem _ _ hnm]
    rfl

/-- A processing function returning the constant 7 on every pixel. -/
def pfSeven : Sig → Except PyErr Sig :=
  fun s => .ok ⟨1, s.npix, fun _ _ => .num 7⟩

/-- A 2-band 1x2 input whose pixel (0,0) has a NaN in band 0 (invalid) and
whose pixel (0,1) is fully valid. -/
def arrMix : Arr3 :=
  ⟨2, 1, 2, fun b _ c => if c = 0 ∧ b = 0 then .nan else .num 3⟩

/-- Witness for C7: at the concrete mixed input, the invalid pixel (0,0)
stays NaN in the computed chunk output even though the transform returns 7
everywhere. -/
theorem c7_nodata_witness :
    ((processChunkData 1 pfSeven true arrMix).toOption.getD (nanArr3 0 0 0)).data 0 0 0 =
      Val.nan :=
  (c7_nodata 1 pfSeven arrMix
      ((processChunkData 1 pfSeven true arrMix).toOption.getD (nanArr3 0 0 0))
      rfl).2.2.2 0 0 (by decide) (by decide) (by decide) 0

theorem lookupIdx_isSome_of_mem : ∀ (l : List (ℕ × ℕ)) (p : ℕ × ℕ), p ∈ l →
    (lookupIdx p l).isSome = true := by
  intro l
  induction l with
  | nil => intro p h; cases h
  | cons q rest ih =>
    intro p h
    unfold lookupIdx
    by_cases e : q = p
    · rw [if_pos e]; rfl
    · rw [if_neg e]
      have hp : p ∈ rest := by
        cases List.mem_cons.mp h with
        | inl hpq => exact absurd hpq.symm e
        | inr hm => exact hm
      cases hm : lookupIdx p rest with
      | none => have := ih p hp; rw [hm] at this; cases this
      | some j => rfl

/-- The pixel-wise action induced by a per-pixel-vector function g: the shape
contract of the transform (spec section 6), with output pixel j depending
only on input pixel j. -/
def pixelApply (g : (ℕ → Val) → ℕ → Val) (ob : ℕ) (s : Sig) : Sig :=
  ⟨ob, s.npix, fun b j => g (fun b2 => s.data b2 j) b⟩

/-- What a pixel-wise run is expected to produce at one cell: the transformed
pixel-vector when the pixel is valid, NaN otherwise. -/
def expectedCell (arrin : Arr3) (drop : Bool) (g : (ℕ → Val) → ℕ → Val)
    (b r c : ℕ) : Val :=
  if validMask drop arrin r c then g (fun b2 => arrin.data b2 r c) b else Val.nan

theorem validMask_slice (drop : Bool) (a : Arr3) (ch : Chunk) (r c : ℕ) :
    validMask drop (sliceChunk a ch) r c =
      validMask drop a (min ch.y a.rows + r) (min ch.x a.cols + c) := rfl

theorem processChunkData_pixelwise (g : (ℕ → Val) → ℕ → Val) (ob : ℕ)
    (pf : Sig → Except PyErr Sig) (drop : Bool) (data : Arr3)
    (Hpf : ∀ s : Sig, s.bands = data.bands → pf s = .ok (pixelApply g ob s)) :
    ∃ out, processChunkData ob pf drop data = .ok out ∧
      out.bands = ob ∧ out.rows = data.rows ∧ out.cols = data.cols ∧
      ∀ b r c, out.data b r c =
        if r < data.rows ∧ c < data.cols ∧ validMask drop data r c = true
        then g (fun b2 => data.data b2 r c) b else Val.nan := by
  have hpf := Hpf (extractCols data
    (validPositions data.rows data.cols (validMask drop data))) rfl
  refine ⟨scatterAssign (nanArr3 ob data.rows data.cols)
      (validPositions data.rows data.cols (validMask drop data))
      (pixelApply g ob (extractCols data
        (validPositions data.rows data.cols (validMask drop data)))),
    ?_, rfl, rfl, rfl, ?_⟩
  · unfold processChunkData
    simp only [Bind.bind, Except.bind]
    rw [hpf]
    show maskedAssign ob (nanArr3 ob data.rows data.cols)
      (validPositions data.rows data.cols (validMask drop data))
      (pixelApply g ob (extractCols data
        (validPositions data.rows data.cols (validMask drop data)))) = _
    unfold maskedAssign
    rw [if_pos ⟨rfl, rfl⟩]
  · intro b r c
    by_cases hin : r < data.rows ∧ c < data.cols ∧ validMask drop data r c = true
    · rw [if_pos hin]
      have hmem : ((r, c) : ℕ × ℕ) ∈
          validPositions data.rows data.cols (validMask drop data) :=
        mem_validPositions.mpr ⟨hin.1, hin.2.1, hin.2.2⟩
      cases hl : lookupIdx (r, c)
          (validPositions data.rows data.cols (validMask drop data)) with
      | none =>
        have := lookupIdx_isSome_of_mem _ _ hmem
        rw [hl] at this
        cases this
      | some j =>
        obtain ⟨hjl, hgd⟩ := lookupIdx_some_getD _ _ j ((0 : ℕ), (0 : ℕ)) hl
        show (match lookupIdx (r, c)
            (validPositions data.rows data.cols (validMask drop data)) with
          | some j => (pixelApply g ob (extractCols data
              (validPositions data.rows data.cols (validMask drop data)))).data b j
          | none => (nanArr3 ob data.rows data.cols).data b r c) = _
        rw [hl]
        show g (fun b2 => data.data b2
          (((validPositions data.rows data.cols (validMask drop data)).getD j (0, 0)).1)
          (((validPositions data.rows data.cols (validMask drop data)).getD j (0, 0)).2)) b = _
        rw [hgd]
    · rw [if_neg hin]
      have hnm : ((r, c) : ℕ × ℕ) ∉
          validPositions data.rows data.cols (validMask drop data) := by
        intro hm
        obtain ⟨h1, h2, h3⟩ := mem_validPositions.mp hm
        exact hin ⟨h1, h2, h3⟩
      show (match lookupIdx (r, c)
          (validPositions data.rows data.cols (validMask drop data)) with
        | some j => (pixelApply g ob (extractCols data
            (validPositions data.rows data.cols (validMask drop data)))).data b j
        | none => (nanArr3 ob data.rows data.cols).data b r c) = _
      rw [lookupIdx_none_of_not_mem _ _ hnm]
      rfl

theorem mt_worker_pixelwise (arrin : Arr3) (g : (ℕ → Val) → ℕ → Val)
    (pf : Sig → Except PyErr Sig) (drop : Bool) (ch : Chunk) (st : Arr3)
    (Hpf : ∀ s : Sig, s.bands = arrin.bands → pf s = .ok (pixelApply g arrin.bands s))
    (hb : st.bands = arrin.bands) (hr : st.rows = arrin.rows)
    (hc : st.cols = arrin.cols) (hx : ch.x = 0) (hw : ch.w = arrin.cols)
    (hyh : ch.y + ch.h ≤ arrin.rows) :
    ∃ st1, mt_worker arrin.bands (fun c2 => .ok (.d3 (sliceChunk arrin c2))) pf
        defaultWfunc drop ch st = .ok st1 ∧
      st1.bands = st.bands ∧ st1.rows = st.rows ∧ st1.cols = st.cols ∧
      ∀ b r c, r < arrin.rows → c < arrin.cols →
        st1.data b r c = if ch.y ≤ r ∧ r < ch.y + ch.h
          then expectedCell arrin drop g b r c else st.data b r c := by
  obtain ⟨out, hout, hob, hor, hoc, hcell⟩ :=
    processChunkData_pixelwise g arrin.bands pf drop (sliceChunk arrin ch) Hpf
  have hsr : (sliceChunk arrin ch).rows = ch.h := by
    show min (ch.y + ch.h) arrin.rows - min ch.y arrin.rows = ch.h
    rw [Nat.min_eq_left hyh, Nat.min_eq_left (by omega)]
    omega
  have hsc : (sliceChunk arrin ch).cols = arrin.cols := by
    show min (ch.x + ch.w) arrin.cols - min ch.x arrin.cols = arrin.cols
    rw [hx, hw]
    simp
  have cond1 : out.bands = st.bands := by rw [hob, hb]
  have cond2 : out.rows = min (ch.y + ch.h) st.rows - min ch.y st.rows := by
    rw [hor, hr]; rfl
  have cond3 : out.cols = min (ch.x + ch.w) st.cols - min ch.x st.cols := by
    rw [hoc, hc]; rfl
  have hminy : min ch.y st.rows = ch.y := by
    rw [hr]; exact Nat.min_eq_left (by omega)
  have hminyh : min (ch.y + ch.h) st.rows = ch.y + ch.h := by
    rw [hr]; exact Nat.min_eq_left hyh
  have hminx : min ch.x st.cols = 0 := by
    rw [hx]; exact Nat.zero_min _
  have hminxw : min (ch.x + ch.w) st.cols = arrin.cols := by
    rw [hc, hx, hw]; simp
  refine ⟨⟨st.bands, st.rows, st.cols, fun b r c =>
      if min ch.y st.rows ≤ r ∧ r < min (ch.y + ch.h) st.rows ∧
          min ch.x st.cols ≤ c ∧ c < min (ch.x + ch.w) st.cols
      then out.data b (r - min ch.y st.rows) (c - min ch.x st.cols)
      else st.data b r c⟩, ?_, rfl, rfl, rfl, ?_⟩
  · unfold mt_worker
    simp only [Bind.bind, Except.bind, normalize3]
    rw [hout]
    show defaultWfunc out ch st = _
    unfold defaultWfunc
    rw [if_pos ⟨cond1, cond2, cond3⟩]
  · intro b r c hrr hcc
    dsimp only
    rw [hminy, hminyh, hminx, hminxw]
    by_cases hy : ch.y ≤ r ∧ r < ch.y + ch.h
    · rw [if_pos ⟨hy.1, hy.2, Nat.zero_le _, hcc⟩, if_pos hy]
      rw [hcell]
      have hpix : (fun b2 => (sliceChunk arrin ch).data b2 (r - ch.y) (c - 0)) =
          fun b2 => arrin.data b2 r c := by
        funext b2
        show arrin.data b2 (min ch.y arrin.rows + (r - ch.y))
          (min ch.x arrin.cols + (c - 0)) = _
        rw [Nat.min_eq_left (show ch.y ≤ arrin.rows by omega), hx, Nat.zero_min,
          Nat.sub_zero, Nat.zero_add, Nat.add_sub_cancel' hy.1]
      have hvm : validMask drop (sliceChunk arrin ch) (r - ch.y) (c - 0) =
          validMask drop arrin r c := by
        rw [validMask_slice, Nat.min_eq_left (show ch.y ≤ arrin.rows by omega),
          hx, Nat.zero_min, Nat.sub_zero, Nat.zero_add, Nat.add_sub_cancel' hy.1]
      unfold expectedCell
      by_cases hv : validMask drop arrin r c = true
      · rw [if_pos ⟨by rw [hsr]; omega, by rw [hsc, Nat.sub_zero]; exact hcc,
          by rw [hvm]; exact hv⟩, if_pos hv, hpix]
      · rw [if_neg (fun hcon => hv (by rw [← hvm]; exact hcon.2.2)),
          if_neg hv]
    · rw [if_neg (fun hcon => hy ⟨hcon.1, hcon.2.1⟩), if_neg hy]

theorem runChunks_pixelwise (arrin : Arr3) (g : (ℕ → Val) → ℕ → Val)
    (pf : Sig → Except PyErr Sig) (drop : Bool)
    (Hpf : ∀ s : Sig, s.bands = arrin.bands → pf s = .ok (pixelApply g arrin.bands s)) :
    ∀ (l : List Chunk) (st : Arr3),
      st.bands = arrin.bands → st.rows = arrin.rows → st.cols = arrin.cols →
      (∀ ch ∈ l, ch.x = 0 ∧ ch.w = arrin.cols ∧ ch.y + ch.h ≤ arrin.rows) →
      ∃ st2, runChunks arrin.bands (fun c2 => .ok (.d3 (sliceChunk arrin c2))) pf
          defaultWfunc drop l st = .ok st2 ∧
        st2.bands = st.bands ∧ st2.rows = st.rows ∧ st2.cols = st.cols ∧
        ∀ b r c, r < arrin.rows → c < arrin.cols →
          st2.data b r c = if ∃ ch ∈ l, ch.y ≤ r ∧ r < ch.y + ch.h
            then expectedCell arrin drop g b r c else st.data b r c := by
  intro l
  induction l with
  | nil =>
    intro st hb hr hc _
    refine ⟨st, rfl, rfl, rfl, rfl, ?_⟩
    intro b r c _ _
    rw [if_neg (by simp)]
  | cons ch l ih =>
    intro st hb hr hc hl
    obtain ⟨hx, hw, hyh⟩ := hl ch (List.mem_cons_self ch l)
    obtain ⟨st1, hst1, h1b, h1r, h1c, h1cell⟩ :=
      mt_worker_pixelwise arrin g pf drop ch st Hpf hb hr hc hx hw hyh
    obtain ⟨st2, hst2, h2b, h2r, h2c, h2cell⟩ :=
      ih st1 (by omega) (by omega) (by omega)
        (fun c2 hc2 => hl c2 (List.mem_cons_of_mem ch hc2))
    refine ⟨st2, ?_, by omega, by omega, by omega, ?_⟩
    · unfold runChunks at hst2 ⊢
      rw [List.foldlM_cons]
      simp only [Bind.bind, Except.bind]
      rw [hst1]
      exact hst2
    · intro b r c hrr hcc
      rw [h2cell b r c hrr hcc, h1cell b r c hrr hcc]
      by_cases hcov : ∃ c2 ∈ l, c2.y ≤ r ∧ r < c2.y + c2.h
      · rw [if_pos hcov, if_pos ?_]
        obtain ⟨c2, hc2m, hc2y⟩ := hcov
        exact ⟨c2, List.mem_cons_of_mem ch hc2m, hc2y⟩
      · rw [if_neg hcov]
        by_cases hyr : ch.y ≤ r ∧ r < ch.y + ch.h
        · rw [if_pos hyr, if_pos ?_]
          exact ⟨ch, List.mem_cons_self ch l, hyr⟩
        · rw [if_neg hyr, if_neg ?_]
          rintro ⟨c2, hc2m, hc2y⟩
          cases List.mem_cons.mp hc2m with
          | inl he => exact hyr (he ▸ hc2y)
          | inr hm => exact hcov ⟨c2, hm, hc2y⟩

theorem sum_take_le (l : List ℕ) (n : ℕ) : (l.take n).sum ≤ l.sum := by
  conv_rhs => rw [← List.take_append_drop n l]
  rw [List.sum_append]
  exact Nat.le_add_right _ _

theorem chunk_mem_props (sh : Shape) (N : ℕ) (hN : 1 ≤ N) :
    ∀ ch ∈ chunk sh N, ch.x = 0 ∧ ch.w = sh.cols ∧ ch.y + ch.h ≤ sh.rows := by
  intro ch hch
  rw [chunk_eq_map] at hch
  obtain ⟨i, hi, rfl⟩ := List.mem_map.mp hch
  have hiN := List.mem_range.mp hi
  refine ⟨rfl, rfl, ?_⟩
  have hlen := chszsOf_length sh.rows N hN
  have h1 := sum_take_succ_getD (chszsOf sh.rows N) i (by omega)
  have h2 := sum_take_le (chszsOf sh.rows N) (i + 1)
  rw [chszsOf_sum sh.rows N hN] at h2
  show ((chszsOf sh.rows N).take i).sum + (chszsOf sh.rows N).getD i 0 ≤ sh.rows
  omega

theorem cover_szs : ∀ (szs : List ℕ) (r : ℕ), r < szs.sum →
    ∃ i, i < szs.length ∧ (szs.take i).sum ≤ r ∧
      r < (szs.take i).sum + szs.getD i 0 := by
  intro szs
  induction szs with
  | nil => intro r h; simp at h
  | cons a t ih =>
    intro r h
    by_cases hra : r < a
    · exact ⟨0, by simp, by simp, by simpa using hra⟩
    · rw [List.sum_cons] at h
      obtain ⟨i, hi, h1, h2⟩ := ih (r - a) (by omega)
      refine ⟨i + 1, by simpa using Nat.succ_lt_succ hi, ?_, ?_⟩
      · simp only [List.take_succ_cons, List.sum_cons]
        omega
      · simp only [List.take_succ_cons, List.sum_cons, List.getD_cons_succ]
        omega

theorem chunk_covers (sh : Shape) (N : ℕ) (hN : 1 ≤ N) :
    ∀ r, r < sh.rows → ∃ ch ∈ chunk sh N, ch.y ≤ r ∧ r < ch.y + ch.h := by
  intro r hr
  have hlen := chszsOf_length sh.rows N hN
  obtain ⟨i, hi, h1, h2⟩ := cover_szs (chszsOf sh.rows N) r
    (by rw [chszsOf_sum sh.rows N hN]; exact hr)
  refine ⟨⟨0, ((chszsOf sh.rows N).take i).sum, sh.cols,
    (chszsOf sh.rows N).getD i 0⟩, ?_, h1, h2⟩
  rw [chunk_eq_map]
  exact List.mem_map.mpr ⟨i, List.mem_range.mpr (by omega), rfl⟩

theorem process_array_fresh_eq (s : MTState) (fid : String) (sa : SAReg)
    (arrin : Arr3) (hw : s.wfunc = none) (hfree : fid ∉ sa) :
    process_array s fid sa arrin =
      (runChunks s.nbandsout (fun ch => .ok (.d3 (sliceChunk arrin ch))) s.pfunc
          defaultWfunc s.dropnodata (chunk arrin.shape3 100)
          (nanArr3 arrin.shape3.bands arrin.shape3.rows arrin.shape3.cols)).bind
        (fun out => .ok
          ({ s with
              inshape := some arrin.shape3,
              rfunc := some (fun ch => .ok (.d3 (sliceChunk arrin ch))),
              id := some fid,
              arrout := some out,
              chunks := some (chunk arrin.shape3 100),
              wfunc := some defaultWfunc }, fid :: sa, out)) := by
  obtain ⟨pf0, nb, nc0, np0, dn, wf, rf0, ins, idf, aro, chf⟩ := s
  simp only at hw
  subst hw
  unfold process_array setup_arrays saCreate
  rw [if_neg hfree]
  rfl

theorem process_array_warm_eq (s : MTState) (fid : String) (sa : SAReg)
    (arrin : Arr3) (w : WFunc) (chs : List Chunk) (ar : Arr3)
    (hw : s.wfunc = some w) (hchs : s.chunks = some chs)
    (har : s.arrout = some ar) :
    process_array s fid sa arrin =
      (runChunks s.nbandsout (fun ch => .ok (.d3 (sliceChunk arrin ch))) s.pfunc
          w s.dropnodata chs ar).bind
        (fun out => .ok
          ({ s with
              inshape := some arrin.shape3,
              rfunc := some (fun ch => .ok (.d3 (sliceChunk arrin ch))),
              arrout := some out }, sa, out)) := by
  obtain ⟨pf0, nb, nc0, np0, dn, wf, rf0, ins, idf, aro, chf⟩ := s
  simp only at hw hchs har
  subst hw; subst hchs; subst har
  rfl

theorem runChunks_partition_char (arrin : Arr3) (g : (ℕ → Val) → ℕ → Val)
    (pf : Sig → Except PyErr Sig) (drop : Bool) (l2 : List Chunk)
    (Hpf : ∀ s : Sig, s.bands = arrin.bands → pf s = .ok (pixelApply g arrin.bands s))
    (hperm : l2.Perm (chunk arrin.shape3 100)) :
    ∃ outP, runChunks arrin.bands (fun ch => .ok (.d3 (sliceChunk arrin ch))) pf
        defaultWfunc drop l2
        (nanArr3 arrin.shape3.bands arrin.shape3.rows arrin.shape3.cols) = .ok outP ∧
      outP.bands = arrin.bands ∧ outP.rows = arrin.rows ∧ outP.cols = arrin.cols ∧
      ∀ b r c, r < arrin.rows → c < arrin.cols →
        outP.data b r c = expectedCell arrin drop g b r c := by
  obtain ⟨st2, hrun, hb2, hr2, hc2, hcell⟩ :=
    runChunks_pixelwise arrin g pf drop Hpf l2
      (nanArr3 arrin.shape3.bands arrin.shape3.rows arrin.shape3.cols) rfl rfl rfl
      (fun ch hch => chunk_mem_props arrin.shape3 100 (by omega) ch (hperm.subset hch))
  refine ⟨st2, hrun, hb2, hr2, hc2, ?_⟩
  intro b r c hrr hcc
  rw [hcell b r c hrr hcc, if_pos ?_]
  obtain ⟨ch, hm, hcov⟩ := chunk_covers arrin.shape3 100 (by omega) r hrr
  exact ⟨ch, hperm.mem_iff.mpr hm, hcov⟩

theorem process_array_pixelwise_char (pf : Sig → Except PyErr Sig)
    (g : (ℕ → Val) → ℕ → Val) (nc np : ℕ) (drop : Bool) (arrin : Arr3)
    (fid : String) (sa : SAReg)
    (Hpf : ∀ s : Sig, s.bands = arrin.bands → pf s = .ok (pixelApply g arrin.bands s))
    (hfree : fid ∉ sa) :
    ∃ s3 out,
      process_array (mkMultiTool pf arrin.bands nc np drop) fid sa arrin =
        .ok (s3, fid :: sa, out) ∧
      out.bands = arrin.bands ∧ out.rows = arrin.rows ∧ out.cols = arrin.cols ∧
      ∀ b r c, r < arrin.rows → c < arrin.cols →
        out.data b r c = expectedCell arrin drop g b r c := by
  rw [process_array_fresh_eq (mkMultiTool pf arrin.bands nc np drop) fid sa arrin rfl hfree]
  obtain ⟨outP, hrun, hb2, hr2, hc2, hcell⟩ :=
    runChunks_partition_char arrin g pf drop (chunk arrin.shape3 100) Hpf (List.Perm.refl _)
  dsimp only [mkMultiTool]
  rw [hrun]
  exact ⟨_, outP, rfl, hb2, hr2, hc2, hcell⟩

theorem identity_pixelwise (arrin : Arr3) :
    ∀ s : Sig, s.bands = arrin.bands →
      (fun s2 : Sig => (Except.ok s2 : Except PyErr Sig)) s =
        .ok (pixelApply (fun v => v) arrin.bands s) := by
  intro s hs
  cases s with
  | mk sb sn sd =>
    simp only at hs
    subst hs
    rfl

/-- Claim C8: process_array with the pass-through transform `lambda x: x` and
output band count equal to the input band count returns an array equal to the
input (with the nodata-drop flag at its constructor default, off). This holds
for every worker count: the model folds the workers in dispatch order, and the
same holds for every permutation of the chunk list, covering all completion
orders of the pooled path. -/
theorem c8_identity (nc np : ℕ) (fid : String) (sa : SAReg) (arrin : Arr3)
    (hfree : fid ∉ sa) :
    ∃ s3 out,
      process_array (mkMultiTool (fun s => .ok s) arrin.bands nc np false)
          fid sa arrin = .ok (s3, fid :: sa, out) ∧
      out.EqOn arrin ∧
      ∀ l2, l2.Perm (chunk arrin.shape3 100) →
        ∃ outP, runChunks arrin.bands (fun ch => .ok (.d3 (sliceChunk arrin ch)))
            (fun s => .ok s) defaultWfunc false l2
            (nanArr3 arrin.shape3.bands arrin.shape3.rows arrin.shape3.cols) =
              .ok outP ∧
          outP.EqOn arrin := by
  obtain ⟨s3, out, hpa, hb, hr, hc, hcell⟩ :=
    process_array_pixelwise_char (fun s => .ok s) (fun v => v) nc np false arrin
      fid sa (identity_pixelwise arrin) hfree
  refine ⟨s3, out, hpa, ⟨hb, hr, hc, ?_⟩, ?_⟩
  · intro bd _ r hrr c hcc
    exact hcell bd r c (hr ▸ hrr) (hc ▸ hcc)
  · intro l2 hperm
    obtain ⟨outP, hrunP, hbP, hrP, hcP, hcellP⟩ :=
      runChunks_partition_char arrin (fun v => v) (fun s => .ok s) false l2
        (identity_pixelwise arrin) hperm
    exact ⟨outP, hrunP, hbP, hrP, hcP,
      fun bd _ r hrr c hcc => hcellP bd r c (hrP ▸ hrr) (hcP ▸ hcc)⟩

/-- Witness for C8 at the concrete 1x2x2 all-zero input with worker count 2. -/
theorem c8_identity_witness :
    ∃ s3 out,
      process_array (mkMultiTool (fun s => .ok s) arrZ.bands 100 2 false)
          "w8" [] arrZ = .ok (s3, ["w8"], out) ∧
      out.EqOn arrZ ∧
      ∀ l2, l2.Perm (chunk arrZ.shape3 100) →
        ∃ outP, runChunks arrZ.bands (fun ch => .ok (.d3 (sliceChunk arrZ ch)))
            (fun s => .ok s) defaultWfunc false l2
            (nanArr3 arrZ.shape3.bands arrZ.shape3.rows arrZ.shape3.cols) =
              .ok outP ∧
          outP.EqOn arrZ :=
  c8_identity 100 2 "w8" [] arrZ (by simp)

set_option maxRecDepth 4000 in
/-- Counterexample to claim C9 as stated: the transform that reverses the
pixel columns is deterministic (and shape-correct), yet the chunked run of
process_array returns the input unchanged (each single-pixel chunk is its own
reversal) while applying the same transform to the whole array at once (the
worker body on the full input) reverses it: cell (0,0,0) is 0 under chunking
but 1 under whole-array application. -/
theorem c9_counterexample :
    runOutCell (process_array (mkMultiTool pfRev 1 100 1 false) "cx" [] arrCx)
        0 0 0 = some (Val.num 0) ∧
      excOutCell (processChunkData 1 pfRev false arrCx) 0 0 0 =
        some (Val.num 1) := by
  decide

theorem expectedCell_of_wholeCell (arrin : Arr3) (g : (ℕ → Val) → ℕ → Val)
    (drop : Bool) (b r c : ℕ) (hr : r < arrin.rows) (hc : c < arrin.cols) :
    (if r < arrin.rows ∧ c < arrin.cols ∧ validMask drop arrin r c = true
      then g (fun b2 => arrin.data b2 r c) b else Val.nan) =
      expectedCell arrin drop g b r c := by
  unfold expectedCell
  by_cases hv : validMask drop arrin r c = true
  · rw [if_pos ⟨hr, hc, hv⟩, if_pos hv]
  · rw [if_neg (fun h => hv h.2.2), if_neg hv]

/-- Claim C9 (amended): for every input and every deterministic PIXEL-WISE
transform — one whose output pixel j depends only on input pixel j, per the
transform contract of the spec, realized here as any pfunc agreeing with
`pixelApply g` — whose output band count equals the input band count, the
sequential path and the pooled path (modelled as the fold over any
permutation of the chunk list, i.e. any dispatch/completion order) produce
the same output, and that output equals applying the transform to the whole
array at once (the worker body `processChunkData` on the full input). -/
theorem c9_pixelwise (pf : Sig → Except PyErr Sig) (g : (ℕ → Val) → ℕ → Val)
    (nc np : ℕ) (drop : Bool) (arrin : Arr3) (fid : String) (sa : SAReg)
    (Hpf : ∀ s : Sig, s.bands = arrin.bands → pf s = .ok (pixelApply g arrin.bands s))
    (hfree : fid ∉ sa) :
    ∃ s3 out outW,
      process_array (mkMultiTool pf arrin.bands nc np drop) fid sa arrin =
        .ok (s3, fid :: sa, out) ∧
      processChunkData arrin.bands pf drop arrin = .ok outW ∧
      out.EqOn outW ∧
      ∀ l2, l2.Perm (chunk arrin.shape3 100) →
        ∃ outP, runChunks arrin.bands (fun ch => .ok (.d3 (sliceChunk arrin ch)))
            pf defaultWfunc drop l2
            (nanArr3 arrin.shape3.bands arrin.shape3.rows arrin.shape3.cols) =
              .ok outP ∧
          outP.EqOn outW := by
  obtain ⟨s3, out, hpa, hb, hr, hc, hcell⟩ :=
    process_array_pixelwise_char pf g nc np drop arrin fid sa Hpf hfree
  obtain ⟨outW, hW, hWb, hWr, hWc, hWcell⟩ :=
    processChunkData_pixelwise g arrin.bands pf drop arrin Hpf
  have hWexp : ∀ b r c, r < arrin.rows → c < arrin.cols →
      outW.data b r c = expectedCell arrin drop g b r c := by
    intro b r c hrr hcc
    rw [hWcell b r c]
    exact expectedCell_of_wholeCell arrin g drop b r c hrr hcc
  refine ⟨s3, out, outW, hpa, hW, ⟨by omega, by omega, by omega, ?_⟩, ?_⟩
  · intro bd _ r hrr c hcc
    rw [hcell bd r c (by omega) (by omega), hWexp bd r c (by omega) (by omega)]
  · intro l2 hperm
    obtain ⟨outP, hrunP, hbP, hrP, hcP, hcellP⟩ :=
      runChunks_partition_char arrin g pf drop l2 Hpf hperm
    refine ⟨outP, hrunP, by omega, by omega, by omega, ?_⟩
    intro bd _ r hrr c hcc
    rw [hcellP bd r c (by omega) (by omega), hWexp bd r c (by omega) (by omega)]

/-- The per-pixel "add one" function used for the C9 witness. -/
def gAddOne : (ℕ → Val) → ℕ → Val := fun v b =>
  match v b with
  | .nan => Val.nan
  | .num z => Val.num (z + 1)

/-- The pixel-wise "add one" transform. -/
def pfAddOne : Sig → Except PyErr Sig := fun s => .ok (pixelApply gAddOne 1 s)

/-- Witness for C9 (amended) at the 1x2x2 all-zero input with an
add-one-per-pixel transform. -/
theorem c9_pixelwise_witness :
    ∃ s3 out outW,
      process_array (mkMultiTool pfAddOne arrZ.bands 100 2 false) "w9" [] arrZ =
        .ok (s3, ["w9"], out) ∧
      processChunkData arrZ.bands pfAddOne false arrZ = .ok outW ∧
      out.EqOn outW ∧
      ∀ l2, l2.Perm (chunk arrZ.shape3 100) →
        ∃ outP, runChunks arrZ.bands (fun ch => .ok (.d3 (sliceChunk arrZ ch)))
            pfAddOne defaultWfunc false l2
            (nanArr3 arrZ.shape3.bands arrZ.shape3.rows arrZ.shape3.cols) =
              .ok outP ∧
          outP.EqOn outW :=
  c9_pixelwise pfAddOne gAddOne 100 2 false arrZ "w9" [] (fun _ _ => rfl) (by simp)

/-- Claim C10: on an instance whose write function is already set (as after a
completed first call), `_setup_arrays` only re-stores the input shape — the
stored chunk list, buffer name and output buffer are untouched, no allocation
or NaN re-initialization happens (the registry is unchanged) — and a
subsequent process_array call is exactly the chunk fold over the OLD chunk
list starting from the OLD output buffer (its results land in the buffer
created by the first call), with the registry again unchanged. -/
theorem c10_frame (s : MTState) (w : WFunc) (chs : List Chunk) (ar : Arr3)
    (fid : String) (sa : SAReg) (inshape : Shape) (arrin : Arr3)
    (hw : s.wfunc = some w) (hchs : s.chunks = some chs)
    (har : s.arrout = some ar) :
    setup_arrays s inshape fid sa = .ok ({ s with inshape := some inshape }, sa) ∧
    process_array s fid sa arrin =
      (runChunks s.nbandsout (fun ch => .ok (.d3 (sliceChunk arrin ch))) s.pfunc
          w s.dropnodata chs ar).bind
        (fun out => .ok
          ({ s with
              inshape := some arrin.shape3,
              rfunc := some (fun ch => .ok (.d3 (sliceChunk arrin ch))),
              arrout := some out }, sa, out)) := by
  refine ⟨?_, process_array_warm_eq s fid sa arrin w chs ar hw hchs har⟩
  obtain ⟨pf0, nb, nc0, np0, dn, wf, rf0, ins, idf, aro, chf⟩ := s
  simp only at hw
  subst hw
  rfl

/-- A MultiTool instance as left behind by a completed first run: write
function installed, chunk list, buffer name and output buffer stored. -/
def mtWarm : MTState :=
  { pfunc := pfPass, nbandsout := 1, nchunks := 100, nproc := 1,
    dropnodata := false, wfunc := some defaultWfunc, rfunc := some rfGood,
    inshape := some ⟨1, 2, 2⟩, id := some "first",
    arrout := some (nanArr3 1 2 2), chunks := some [⟨0, 0, 2, 2⟩] }

/-- Witness for C10: on the concrete warm instance, a second `_setup_arrays`
only updates the stored input shape and allocates nothing. -/
theorem c10_frame_witness :
    setup_arrays mtWarm ⟨1, 3, 3⟩ "second" [] =
      .ok ({ mtWarm with inshape := some ⟨1, 3, 3⟩ }, []) :=
  (c10_frame mtWarm defaultWfunc [⟨0, 0, 2, 2⟩] (nanArr3 1 2 2) "second" []
    ⟨1, 3, 3⟩ arrZ rfl rfl rfl).1
